import Mathlib

/-!
Shallow embedding of the search core of `simple_find_core`
(src/core/src/lib.rs).

Conventions of the embedding:
* Rust `String` / `&str` content is modelled as `List Char` (Unicode scalar
  values, exactly what Rust strings hold); `String` is kept at the API
  boundary (`FileInput.content`, `MatchResult.line_text`) and converted with
  `String.toList` / `String.mk`.
* Rust `usize` / `u32` are modelled as `Nat`.  On the crate target (wasm32)
  `usize` is 32 bits, so `line_idx + 1` and `m.start() + 1` are below
  `2 ^ 32` and the `as u32` casts never truncate; the casts are therefore
  modelled as the identity.
* The `regex` crate is an external dependency, not code of this repository.
  It is modelled, per the spec, by `Regex` / `compileRegex` / `findIter`
  below: the modelled pattern language is the literal fragment (a pattern
  with no metacharacter compiles to a literal matcher, the empty pattern
  compiles to the empty matcher, and a pattern containing a metacharacter
  such as `[` is rejected).  On every pattern the spec and the tests
  exercise, the model classifies and matches exactly as the real engine
  does: literal needles match by Unicode scalar comparison (folded through
  `Char.toLower` when case-insensitive, which agrees with the engine on the
  ASCII inputs the spec uses), match iteration is leftmost-first and
  non-overlapping and advances by one position past a zero-width match, and
  reported offsets are UTF-8 byte offsets (obtained here from character
  positions via `utf8Len`, since a UTF-8 needle can only occur at a
  character boundary of a UTF-8 haystack).
-/

namespace SimpleFind

/-- A path plus its in-memory content (struct `FileInput` in lib.rs). -/
structure FileInput where
  path : String
  content : String
  deriving DecidableEq

/-- One match occurrence (struct `MatchResult` in lib.rs): 1-based line,
1-based byte column, and the full text of the matched line. -/
structure MatchResult where
  path : String
  line : Nat
  column : Nat
  line_text : String
  deriving DecidableEq

/-- Modelled from the spec: a compiled matcher of the underlying regex
engine, restricted to the literal fragment.  `needle` is the pattern text
(empty for the empty pattern); `ci` records whether the builder enabled
case-insensitive matching. -/
structure Regex where
  needle : List Char
  ci : Bool
  deriving DecidableEq

/-- The regex metacharacters; a pattern containing one is outside the
modelled literal fragment and is rejected by `compileRegex`. -/
def metaChars : List Char :=
  ['\\', '.', '+', '*', '?', '(', ')', '|', '[', ']', '{', '}', '^', '$']

/-- Modelled from the spec: pattern compilation (`Regex::new` resp.
`RegexBuilder::new(..).case_insensitive(true).build()` in lib.rs).
A metacharacter-free pattern is a valid literal; in particular the empty
pattern is valid and the pattern `[` is invalid, as in the real engine. -/
def compileRegex (pattern : List Char) (case_insensitive : Bool) : Option Regex :=
  if pattern.all (fun c => !(metaChars.contains c)) then
    some ⟨pattern, case_insensitive⟩
  else
    none

/-- Case folding used by the matcher: identity when case-sensitive,
`Char.toLower` when case-insensitive. -/
def foldChar (ci : Bool) (c : Char) : Char :=
  if ci then c.toLower else c

/-- Does the needle match at character position `i` of `line`?  (For the
empty needle this holds at every position.) -/
def litMatchesAt (re : Regex) (line : List Char) (i : Nat) : Bool :=
  decide ((((line.drop i).take re.needle.length).map (foldChar re.ci)) =
    re.needle.map (foldChar re.ci))

/-- Leftmost match search from position `i`, fuelled (fuel
`line.length + 1 - i` always suffices).  Models the engine finding the
leftmost match at or after `i`. -/
def findFromAux (re : Regex) (line : List Char) : Nat → Nat → Option (Nat × Nat)
  | 0, _ => none
  | fuel + 1, i =>
    if i ≤ line.length then
      if litMatchesAt re line i then some (i, i + re.needle.length)
      else findFromAux re line fuel (i + 1)
    else
      none

/-- Leftmost match of `re` in `line` starting at or after position `i`,
as a pair of character positions (start, end). -/
def findFrom (re : Regex) (line : List Char) (i : Nat) : Option (Nat × Nat) :=
  findFromAux re line (line.length + 1 - i) i

/-- One step of the `find_iter` loop: after a match (s, e), scanning resumes
at `e`, or at `e + 1` when the match was zero-width (the advance-past rule
of the engine iterator). -/
def nextPos (s e : Nat) : Nat :=
  if e = s then e + 1 else e

/-- Fuelled `find_iter` loop (fuel `line.length + 2` always suffices, since
the scan position strictly increases and never exceeds
`line.length + 1`). -/
def findIterAux (re : Regex) (line : List Char) : Nat → Nat → List (Nat × Nat)
  | 0, _ => []
  | fuel + 1, i =>
    match findFrom re line i with
    | none => []
    | some (s, e) => (s, e) :: findIterAux re line fuel (nextPos s e)

/-- Modelled from the spec: `re.find_iter(line)` — all non-overlapping
matches, leftmost-first, in left-to-right order, as character positions. -/
def findIter (re : Regex) (line : List Char) : List (Nat × Nat) :=
  findIterAux re line (line.length + 2) 0

/-- UTF-8 byte length of a character list; `utf8Len (line.take s)` is the
byte offset the engine reports for a match starting at character
position `s`. -/
def utf8Len (cs : List Char) : Nat :=
  (cs.map Char.utf8Size).sum

/-- Strip one trailing carriage return; the argument is a REVERSED line
accumulator, so the trailing CR is at the head. -/
def stripTrailCr : List Char → List Char
  | [] => []
  | c :: t => if c = '\r' then t else c :: t

/-- Worker for `splitLines`: `acc` is the current line accumulated in
reverse.  A line feed ends a line (a carriage return immediately before it
is stripped); at the end of input a nonempty partial line is still
yielded. -/
def linesAux : List Char → List Char → List (List Char)
  | acc, [] => if acc = [] then [] else [acc.reverse]
  | acc, c :: rest =>
    if c = '\n' then (stripTrailCr acc).reverse :: linesAux [] rest
    else linesAux (c :: acc) rest

/-- Rust `str::lines`: lines are ended by LF or CRLF, the terminator is not
part of the line, a bare CR does not end a line, a final partial line is
yielded, and empty content yields no lines. -/
def splitLines (cs : List Char) : List (List Char) :=
  linesAux [] cs

/-- The single quote character (written via its code point). -/
def squote : String :=
  String.mk [Char.ofNat 39]

/-- Modelled from the spec: the human-readable diagnostic the engine
attaches to an invalid pattern (its format is unconstrained). -/
def regexDiag (pattern : String) : String :=
  "regex parse error"

/-- The error string built in lib.rs when compilation fails: the literal
text `Invalid regex pattern` followed by the pattern in single quotes and
the engine diagnostic. -/
def patternError (pattern : String) : String :=
  "Invalid regex pattern " ++ squote ++ pattern ++ squote ++ ": " ++ regexDiag pattern

/-- The `search` function of lib.rs, translated clause for clause:
compile the pattern (case-insensitively when `case_sensitive` is false),
propagating the compilation error; then push one `MatchResult` per match
into an accumulator, iterating files in order, lines of each file in order
(0-based `enumerate`, stored 1-based), and matches of each line in order. -/
def search (pattern : String) (files : List FileInput) (case_sensitive : Bool) :
    Except String (List MatchResult) :=
  match compileRegex pattern.toList (!case_sensitive) with
  | none => Except.error (patternError pattern)
  | some re =>
    Except.ok (files.foldl
      (fun results f =>
        ((splitLines f.content.toList).enum).foldl
          (fun results p =>
            (findIter re p.2).foldl
              (fun results m =>
                results ++ [⟨f.path, p.1 + 1, utf8Len (p.2.take m.1) + 1, String.mk p.2⟩])
              results)
          results)
      [])

/-- The results contributed by one line (spec wording: for each match, in
left-to-right order, one record with the 1-based line index, the 1-based
start offset, and the full line text). -/
def lineMatches (re : Regex) (path : String) (idx : Nat) (line : List Char) :
    List MatchResult :=
  (findIter re line).map fun m => ⟨path, idx + 1, utf8Len (line.take m.1) + 1, String.mk line⟩

/-- The results contributed by one file: its lines in order, numbered
from 1. -/
def fileMatches (re : Regex) (f : FileInput) : List MatchResult :=
  ((splitLines f.content.toList).enum).flatMap fun p => lineMatches re f.path p.1 p.2

/-- The sequence the spec describes: per-file results concatenated in input
file order. -/
def searchSpec (re : Regex) (files : List FileInput) : List MatchResult :=
  files.flatMap fun f => fileMatches re f

deriving instance DecidableEq for Except

/-! ### The accumulator loop of `search` produces the declarative sequence -/

theorem foldl_push {α β : Type} (g : α → β) (l : List α) :
    ∀ init : List β, l.foldl (fun acc x => acc ++ [g x]) init = init ++ l.map g := by
  induction l with
  | nil => intro init; simp
  | cons x xs ih => intro init; simp [ih]

theorem foldl_chunks {α : Type} (f : α → List MatchResult) (l : List α) :
    ∀ init, l.foldl (fun acc x => acc ++ f x) init = init ++ l.flatMap f := by
  induction l with
  | nil => intro init; simp
  | cons x xs ih => intro init; simp [ih]

theorem foldl_lines (re : Regex) (path : String) (ps : List (Nat × List Char)) :
    ∀ init : List MatchResult,
      ps.foldl
        (fun results p =>
          (findIter re p.2).foldl
            (fun results m =>
              results ++ [⟨path, p.1 + 1, utf8Len (p.2.take m.1) + 1, String.mk p.2⟩])
            results)
        init
      = init ++ ps.flatMap fun p => lineMatches re path p.1 p.2 := by
  intro init
  have hfun : (fun (results : List MatchResult) (p : Nat × List Char) =>
      (findIter re p.2).foldl
        (fun results m =>
          results ++ [⟨path, p.1 + 1, utf8Len (p.2.take m.1) + 1, String.mk p.2⟩])
        results)
      = fun results p => results ++ lineMatches re path p.1 p.2 := by
    funext results p
    rw [foldl_push]
    rfl
  rw [hfun, foldl_chunks]

theorem foldl_files (re : Regex) (files : List FileInput) :
    ∀ init : List MatchResult,
      files.foldl
        (fun results f =>
          ((splitLines f.content.toList).enum).foldl
            (fun results p =>
              (findIter re p.2).foldl
                (fun results m =>
                  results ++ [⟨f.path, p.1 + 1, utf8Len (p.2.take m.1) + 1, String.mk p.2⟩])
                results)
            results)
        init
      = init ++ searchSpec re files := by
  intro init
  have hfun : (fun (results : List MatchResult) (f : FileInput) =>
      ((splitLines f.content.toList).enum).foldl
        (fun results p =>
          (findIter re p.2).foldl
            (fun results m =>
              results ++ [⟨f.path, p.1 + 1, utf8Len (p.2.take m.1) + 1, String.mk p.2⟩])
            results)
        results)
      = fun results f => results ++ fileMatches re f := by
    funext results f
    rw [foldl_lines]
    rfl
  rw [hfun, foldl_chunks]
  rfl

theorem search_ok {pattern : String} {cs : Bool} {re : Regex}
    (h : compileRegex pattern.toList (!cs) = some re) (files : List FileInput) :
    search pattern files cs = Except.ok (searchSpec re files) := by
  unfold search
  rw [h]
  exact congrArg Except.ok ((foldl_files re files []).trans (List.nil_append _))

theorem search_err {pattern : String} {cs : Bool}
    (h : compileRegex pattern.toList (!cs) = none) (files : List FileInput) :
    search pattern files cs = Except.error (patternError pattern) := by
  unfold search
  rw [h]

/-! ### Invariants of the match iterator -/

theorem litMatchesAt_le {re : Regex} {line : List Char} {s : Nat}
    (h : litMatchesAt re line s = true) (hs : s ≤ line.length) :
    s + re.needle.length ≤ line.length := by
  have heq := of_decide_eq_true h
  have hlen := congrArg List.length heq
  simp only [List.length_map, List.length_take, List.length_drop] at hlen
  omega

theorem findFromAux_some {re : Regex} {line : List Char} :
    ∀ {fuel i s e : Nat}, findFromAux re line fuel i = some (s, e) →
      i ≤ s ∧ s ≤ line.length ∧ e = s + re.needle.length ∧ litMatchesAt re line s = true := by
  intro fuel
  induction fuel with
  | zero =>
    intro i s e h
    simp [findFromAux] at h
  | succ n ih =>
    intro i s e h
    simp only [findFromAux] at h
    by_cases hle : i ≤ line.length
    · rw [if_pos hle] at h
      by_cases hm : litMatchesAt re line i = true
      · rw [if_pos hm] at h
        obtain ⟨rfl, rfl⟩ := Prod.mk.injEq .. ▸ Option.some.inj h
        exact ⟨Nat.le_refl _, hle, rfl, hm⟩
      · rw [if_neg hm] at h
        obtain ⟨h1, h2, h3, h4⟩ := ih h
        exact ⟨by omega, h2, h3, h4⟩
    · rw [if_neg hle] at h
      exact absurd h (by simp)

theorem findFrom_some {re : Regex} {line : List Char} {i s e : Nat}
    (h : findFrom re line i = some (s, e)) :
    i ≤ s ∧ s ≤ line.length ∧ e = s + re.needle.length ∧ e ≤ line.length := by
  obtain ⟨h1, h2, h3, h4⟩ := findFromAux_some h
  refine ⟨h1, h2, h3, ?_⟩
  have := litMatchesAt_le h4 h2
  omega

theorem nextPos_gt {s e : Nat} (he : e = s ∨ s ≤ e) : s < nextPos s e ∨ nextPos s e = e := by
  unfold nextPos
  split <;> omega

theorem findIterAux_mem {re : Regex} {line : List Char} :
    ∀ {fuel i : Nat} {m : Nat × Nat}, m ∈ findIterAux re line fuel i →
      i ≤ m.1 ∧ m.1 ≤ line.length ∧ m.1 ≤ m.2 ∧ m.2 ≤ line.length := by
  intro fuel
  induction fuel with
  | zero =>
    intro i m h
    simp [findIterAux] at h
  | succ n ih =>
    intro i m h
    simp only [findIterAux] at h
    cases hf : findFrom re line i with
    | none => rw [hf] at h; simp at h
    | some se =>
      rw [hf] at h
      obtain ⟨s, e⟩ := se
      obtain ⟨h1, h2, h3, h4⟩ := findFrom_some hf
      rcases List.mem_cons.mp h with rfl | hm
      · exact ⟨h1, h2, by omega, h4⟩
      · obtain ⟨g1, g2, g3, g4⟩ := ih hm
        have hlt : s < nextPos s e := by
          unfold nextPos
          split <;> omega
        exact ⟨by omega, g2, g3, g4⟩

theorem findIterAux_pairwise {re : Regex} {line : List Char} :
    ∀ {fuel i : Nat},
      List.Pairwise (fun a b : Nat × Nat => a.1 < b.1) (findIterAux re line fuel i) := by
  intro fuel
  induction fuel with
  | zero =>
    intro i
    simp [findIterAux]
  | succ n ih =>
    intro i
    simp only [findIterAux]
    cases hf : findFrom re line i with
    | none => simp
    | some se =>
      obtain ⟨s, e⟩ := se
      refine List.Pairwise.cons ?_ ih
      intro b hb
      obtain ⟨g1, _, _, _⟩ := findIterAux_mem hb
      obtain ⟨_, _, h3, _⟩ := findFrom_some hf
      have hlt : s < nextPos s e := by
        unfold nextPos
        split <;> omega
      omega

theorem findIter_mem {re : Regex} {line : List Char} {m : Nat × Nat}
    (h : m ∈ findIter re line) :
    m.1 ≤ line.length ∧ m.1 ≤ m.2 ∧ m.2 ≤ line.length := by
  obtain ⟨-, h2, h3, h4⟩ := findIterAux_mem h
  exact ⟨h2, h3, h4⟩

theorem findIter_pairwise (re : Regex) (line : List Char) :
    List.Pairwise (fun a b : Nat × Nat => a.1 < b.1) (findIter re line) :=
  findIterAux_pairwise

/-! ### Byte offsets -/

theorem utf8Len_append (a b : List Char) : utf8Len (a ++ b) = utf8Len a + utf8Len b := by
  simp [utf8Len]

theorem length_le_utf8Len (cs : List Char) : cs.length ≤ utf8Len cs := by
  induction cs with
  | nil => simp [utf8Len]
  | cons c t ih =>
    have := Char.utf8Size_pos c
    simp only [utf8Len, List.map_cons, List.sum_cons, List.length_cons]
    simp only [utf8Len] at ih
    omega

theorem utf8Len_pos {cs : List Char} (h : cs ≠ []) : 0 < utf8Len cs := by
  have h1 := length_le_utf8Len cs
  have h2 : 0 < cs.length := List.length_pos.mpr h
  omega

theorem utf8Len_take_lt {l : List Char} {a b : Nat} (hab : a < b) (hb : b ≤ l.length) :
    utf8Len (l.take a) < utf8Len (l.take b) := by
  have h1 : l.take a ++ (l.take b).drop a = l.take b := by
    have : (l.take b).take a = l.take a := by
      rw [List.take_take, Nat.min_eq_left (Nat.le_of_lt hab)]
    rw [← this, List.take_append_drop]
  have h2 : ((l.take b).drop a).length = b - a := by
    simp only [List.length_drop, List.length_take]
    omega
  have hne : (l.take b).drop a ≠ [] := by
    intro hnil
    rw [hnil] at h2
    simp at h2
    omega
  have h3 := utf8Len_pos hne
  have h4 := utf8Len_append (l.take a) ((l.take b).drop a)
  rw [h1] at h4
  omega

/-! ### The empty pattern -/

theorem litMatchesAt_epsilon {re : Regex} (h : re.needle = []) (line : List Char) (i : Nat) :
    litMatchesAt re line i = true := by
  simp [litMatchesAt, h]

theorem findFrom_epsilon {re : Regex} (h : re.needle = []) {line : List Char} {i : Nat}
    (hi : i ≤ line.length) : findFrom re line i = some (i, i) := by
  unfold findFrom
  have hfuel : line.length + 1 - i = (line.length - i) + 1 := by omega
  rw [hfuel]
  simp [findFromAux, hi, litMatchesAt_epsilon h, h]

theorem findFrom_none {re : Regex} {line : List Char} {i : Nat}
    (hi : line.length < i) : findFrom re line i = none := by
  unfold findFrom
  have hfuel : line.length + 1 - i = 0 := by omega
  rw [hfuel]
  rfl

theorem findIterAux_epsilon {re : Regex} (h : re.needle = []) (line : List Char) :
    ∀ fuel i, line.length + 1 - i < fuel →
      findIterAux re line fuel i =
        (List.range' i (line.length + 1 - i)).map fun j => (j, j) := by
  intro fuel
  induction fuel with
  | zero =>
    intro i hi
    omega
  | succ n ih =>
    intro i hi
    simp only [findIterAux]
    by_cases hle : i ≤ line.length
    · rw [findFrom_epsilon h hle]
      have hnp : nextPos i i = i + 1 := by simp [nextPos]
      simp only [hnp]
      rw [ih (i + 1) (by omega)]
      have hspan : line.length + 1 - i = (line.length - i) + 1 := by omega
      have hspan' : line.length + 1 - (i + 1) = line.length - i := by omega
      rw [hspan, hspan', List.range'_succ]
      simp
    · rw [findFrom_none (by omega)]
      have hspan : line.length + 1 - i = 0 := by omega
      simp [hspan]

theorem findIter_epsilon {re : Regex} (h : re.needle = []) (line : List Char) :
    findIter re line = (List.range (line.length + 1)).map fun j => (j, j) := by
  unfold findIter
  rw [findIterAux_epsilon h line (line.length + 2) 0 (by omega)]
  simp [List.range_eq_range']

/-! ### Line splitting -/

theorem linesAux_no_nl {l : List Char} (hnl : '\n' ∉ l) :
    ∀ acc : List Char, acc ≠ [] ∨ l ≠ [] → linesAux acc l = [acc.reverse ++ l] := by
  induction l with
  | nil =>
    intro acc hne
    have hacc : acc ≠ [] := by
      rcases hne with hh | hh
      · exact hh
      · exact absurd rfl hh
    simp [linesAux, hacc]
  | cons c t ih =>
    intro acc _
    have hc : c ≠ '\n' := by
      intro hh
      exact hnl (by simp [hh])
    have hnt : '\n' ∉ t := fun hh => hnl (List.mem_cons_of_mem _ hh)
    simp only [linesAux, if_neg hc]
    rw [ih hnt (c :: acc) (Or.inl (by simp))]
    simp

theorem linesAux_term {l : List Char} (hnl : '\n' ∉ l) (rest : List Char) :
    ∀ acc : List Char,
      linesAux acc (l ++ '\n' :: rest) =
        (stripTrailCr (l.reverse ++ acc)).reverse :: linesAux [] rest := by
  induction l with
  | nil =>
    intro acc
    simp [linesAux]
  | cons c t ih =>
    intro acc
    have hc : c ≠ '\n' := by
      intro hh
      exact hnl (by simp [hh])
    have hnt : '\n' ∉ t := fun hh => hnl (List.mem_cons_of_mem _ hh)
    rw [List.cons_append]
    simp only [linesAux, if_neg hc]
    rw [ih hnt (c :: acc)]
    simp

theorem stripTrailCr_of_ne {l : List Char} (h : l.getLast? ≠ some '\r') :
    stripTrailCr l.reverse = l.reverse := by
  cases hrev : l.reverse with
  | nil => rfl
  | cons c t =>
    have hc : c ≠ '\r' := by
      intro hh
      apply h
      rw [← List.head?_reverse, hrev, hh]
      rfl
    simp [stripTrailCr, hc]

theorem splitLines_nil : splitLines [] = [] := rfl

theorem splitLines_single {l : List Char} (hnl : '\n' ∉ l) (hne : l ≠ []) :
    splitLines l = [l] := by
  unfold splitLines
  rw [linesAux_no_nl hnl [] (Or.inr hne)]
  simp

theorem splitLines_term {l : List Char} (hnl : '\n' ∉ l) (hcr : l.getLast? ≠ some '\r')
    (rest : List Char) : splitLines (l ++ '\n' :: rest) = l :: splitLines rest := by
  unfold splitLines
  rw [linesAux_term hnl rest []]
  rw [List.append_nil, stripTrailCr_of_ne hcr]
  simp

theorem splitLines_crlf {l : List Char} (hnl : '\n' ∉ l) (rest : List Char) :
    splitLines (l ++ '\r' :: '\n' :: rest) = l :: splitLines rest := by
  unfold splitLines
  have hsplit : l ++ '\r' :: '\n' :: rest = (l ++ ['\r']) ++ '\n' :: rest := by simp
  have hnl' : '\n' ∉ l ++ ['\r'] := by
    intro hh
    rcases List.mem_append.mp hh with hh | hh
    · exact hnl hh
    · simp at hh
  rw [hsplit, linesAux_term hnl' rest []]
  have : stripTrailCr ((l ++ ['\r']).reverse ++ []) = l.reverse := by
    simp [stripTrailCr]
  rw [this]
  simp

/-! ### Shape of the per-line and per-file result blocks -/

theorem lineMatches_line {re : Regex} {path : String} {idx : Nat} {line : List Char}
    {r : MatchResult} (h : r ∈ lineMatches re path idx line) : r.line = idx + 1 := by
  obtain ⟨m, -, rfl⟩ := List.mem_map.mp h
  rfl

theorem lineMatches_shape {re : Regex} {path : String} {idx : Nat} {line : List Char}
    {r : MatchResult} (h : r ∈ lineMatches re path idx line) :
    ∃ s : Nat, s ≤ line.length ∧
      r = ⟨path, idx + 1, utf8Len (line.take s) + 1, String.mk line⟩ := by
  obtain ⟨m, hm, rfl⟩ := List.mem_map.mp h
  exact ⟨m.1, (findIter_mem hm).1, rfl⟩

theorem enumFrom_block_line_lb (re : Regex) (path : String) :
    ∀ (ls : List (List Char)) (k : Nat) (r : MatchResult),
      r ∈ (List.enumFrom k ls).flatMap (fun p => lineMatches re path p.1 p.2) →
      k + 1 ≤ r.line := by
  intro ls
  induction ls with
  | nil =>
    intro k r h
    simp [List.enumFrom] at h
  | cons l ls ih =>
    intro k r h
    rw [List.enumFrom, List.flatMap_cons] at h
    rcases List.mem_append.mp h with h | h
    · rw [lineMatches_line h]
    · have := ih (k + 1) r h
      omega

theorem enumFrom_block_pairwise (re : Regex) (path : String) :
    ∀ (ls : List (List Char)) (k : Nat),
      List.Pairwise (fun a b : MatchResult => a.line ≤ b.line)
        ((List.enumFrom k ls).flatMap fun p => lineMatches re path p.1 p.2) := by
  intro ls
  induction ls with
  | nil =>
    intro k
    simp [List.enumFrom]
  | cons l ls ih =>
    intro k
    rw [List.enumFrom, List.flatMap_cons]
    rw [List.pairwise_append]
    refine ⟨?_, ih (k + 1), ?_⟩
    · refine List.pairwise_of_forall_mem_list ?_
      intro a ha b hb
      rw [lineMatches_line ha, lineMatches_line hb]
    · intro a ha b hb
      rw [lineMatches_line ha]
      have := enumFrom_block_line_lb re path ls (k + 1) b hb
      omega

theorem fileMatches_line_pos {re : Regex} {f : FileInput} {r : MatchResult}
    (h : r ∈ fileMatches re f) : 1 ≤ r.line := by
  unfold fileMatches at h
  have := enumFrom_block_line_lb re f.path (splitLines f.content.toList) 0 r h
  omega

theorem fileMatches_pairwise (re : Regex) (f : FileInput) :
    List.Pairwise (fun a b : MatchResult => a.line ≤ b.line) (fileMatches re f) :=
  enumFrom_block_pairwise re f.path (splitLines f.content.toList) 0

theorem lineMatches_columns (re : Regex) (path : String) (idx : Nat) (line : List Char) :
    List.Pairwise (fun a b : MatchResult => a.column < b.column)
      (lineMatches re path idx line) := by
  unfold lineMatches
  rw [List.pairwise_map]
  refine (findIter_pairwise re line).imp_of_mem ?_
  intro a b _ hb hab
  have hble := (findIter_mem hb).1
  have := utf8Len_take_lt hab hble
  show utf8Len (line.take a.1) + 1 < utf8Len (line.take b.1) + 1
  omega

theorem searchSpec_mem {re : Regex} {files : List FileInput} {r : MatchResult}
    (h : r ∈ searchSpec re files) :
    ∃ (f : FileInput) (idx : Nat) (line : List Char),
      f ∈ files ∧ r ∈ lineMatches re f.path idx line := by
  unfold searchSpec at h
  obtain ⟨f, hf, hr⟩ := List.mem_flatMap.mp h
  unfold fileMatches at hr
  obtain ⟨p, -, hp⟩ := List.mem_flatMap.mp hr
  exact ⟨f, p.1, p.2, hf, hp⟩

/-! ### Claim theorems -/

/-- C1: for every pattern that compiles, every file list and every
case-sensitivity flag, `search` returns exactly the sequence described by
the spec (`searchSpec`): files in input order, then the lines of each file
in order numbered from 1, then the non-overlapping leftmost-first matches
of the compiled pattern within that single line in left-to-right order,
each emitted as one `MatchResult` carrying the path of the file, the
1-based line index, the 1-based start offset of the match within the line,
and the full current line; lines are scanned independently, so no match
spans a line boundary. -/
theorem search_returns_spec_sequence (pattern : String) (files : List FileInput)
    (case_sensitive : Bool) (re : Regex)
    (h : compileRegex pattern.toList (!case_sensitive) = some re) :
    search pattern files case_sensitive = Except.ok (searchSpec re files) :=
  search_ok h files

theorem search_returns_spec_sequence_witness :
    search "foo" [⟨"t", "foo bar foo baz"⟩] true =
      Except.ok (searchSpec ⟨"foo".toList, false⟩ [⟨"t", "foo bar foo baz"⟩]) :=
  search_returns_spec_sequence "foo" [⟨"t", "foo bar foo baz"⟩] true
    ⟨"foo".toList, false⟩ (by decide)

/-- C2: `search` returns an error if and only if the pattern does not
compile; the error is returned as a value, is determined by the pattern
alone (so the scanner never runs and no partial results exist), and is the
same for every file list, including the empty one. -/
theorem search_error_iff_invalid (pattern : String) (files : List FileInput)
    (case_sensitive : Bool) :
    ((∃ e, search pattern files case_sensitive = Except.error e) ↔
      compileRegex pattern.toList (!case_sensitive) = none) ∧
    (∀ e, search pattern files case_sensitive = Except.error e →
      ∀ files' : List FileInput, search pattern files' case_sensitive = Except.error e) := by
  constructor
  · constructor
    · rintro ⟨e, he⟩
      cases hc : compileRegex pattern.toList (!case_sensitive) with
      | none => rfl
      | some re =>
        rw [search_ok hc files] at he
        exact absurd he (by simp)
    · intro hc
      exact ⟨patternError pattern, search_err hc files⟩
  · intro e he files'
    cases hc : compileRegex pattern.toList (!case_sensitive) with
    | none =>
      rw [search_err hc files] at he
      injection he with he'
      rw [← he']
      exact search_err hc files'
    | some re =>
      rw [search_ok hc files] at he
      exact absurd he (by simp)

theorem search_error_iff_invalid_witness :
    ∃ e, search "[" [⟨"t", "Hello, world!"⟩] true = Except.error e :=
  (search_error_iff_invalid "[" [⟨"t", "Hello, world!"⟩] true).1.mpr (by decide)

/-- C3 counterexample: the empty pattern on a file with empty content
yields ZERO matches, not one — `lines` on empty content yields no line at
all, so no line is scanned. -/
theorem empty_file_one_line_cex :
    ¬ (Except.map List.length (search "" [⟨"empty.txt", ""⟩] true) = Except.ok 1) := by
  decide

/-- C3 amended: empty content splits into zero lines, so a file with empty
content contributes zero matches for every pattern that compiles —
including the empty pattern, for which it yields 0 results rather than
`len + 1 = 1`. -/
theorem empty_file_zero_matches (pattern path : String) (case_sensitive : Bool) (re : Regex)
    (h : compileRegex pattern.toList (!case_sensitive) = some re) :
    search pattern [⟨path, ""⟩] case_sensitive = Except.ok [] := by
  rw [search_ok h]
  rfl

theorem empty_file_zero_matches_witness :
    search "" [⟨"empty.txt", ""⟩] true = Except.ok [] :=
  empty_file_zero_matches "" "empty.txt" true ⟨[], false⟩ (by decide)

/-- C4: the empty pattern produces one zero-width match at every position
0 through n of a line of n characters — `findIter` returns exactly those
n + 1 matches in left-to-right order (so the iteration advances past each
zero-width match and terminates); in particular the empty pattern on the
single line `Hello, world!` of 13 characters yields exactly 14 results
with strictly increasing columns 1 through 14. -/
theorem empty_pattern_zero_width_matches :
    (∀ (ci : Bool) (line : List Char),
      findIter ⟨[], ci⟩ line = (List.range (line.length + 1)).map fun j => (j, j)) ∧
    Except.map List.length (search "" [⟨"t", "Hello, world!"⟩] true) = Except.ok 14 ∧
    Except.map (List.map MatchResult.column) (search "" [⟨"t", "Hello, world!"⟩] true) =
      Except.ok [1, 2, 3, 4, 5, 6, 7, 8, 9, 10, 11, 12, 13, 14] := by
  refine ⟨fun ci line => findIter_epsilon rfl line, by decide, by decide⟩

/-- C5: case sensitivity — `world` on `Hello, world!` case-sensitively
yields one result at column 8; `world` on `Hello, WORLD!` case-sensitively
yields nothing; the same input searched case-insensitively yields one
result whose line text is `Hello, WORLD!` (and column 8), the compiled
matcher folding case over the full input. -/
theorem case_sensitivity_behavior :
    search "world" [⟨"t", "Hello, world!"⟩] true =
      Except.ok [⟨"t", 1, 8, "Hello, world!"⟩] ∧
    search "world" [⟨"t", "Hello, WORLD!"⟩] true = Except.ok [] ∧
    search "world" [⟨"t", "Hello, WORLD!"⟩] false =
      Except.ok [⟨"t", 1, 8, "Hello, WORLD!"⟩] := by
  refine ⟨by decide, by decide, by decide⟩

/-- C6: whenever `search` returns an error, the message contains the
offending pattern verbatim as a contiguous substring, for every pattern
and every file list. -/
theorem error_message_contains_pattern (pattern : String) (files : List FileInput)
    (case_sensitive : Bool) (e : String)
    (h : search pattern files case_sensitive = Except.error e) :
    ∃ pre post : List Char, e.toList = pre ++ pattern.toList ++ post := by
  cases hc : compileRegex pattern.toList (!case_sensitive) with
  | none =>
    rw [search_err hc files] at h
    injection h with h'
    refine ⟨("Invalid regex pattern " ++ squote).toList,
      (squote ++ ": " ++ regexDiag pattern).toList, ?_⟩
    rw [← h']
    simp [patternError, String.toList]
  | some re =>
    rw [search_ok hc files] at h
    exact absurd h (by simp)

theorem error_message_contains_pattern_witness :
    ∃ pre post : List Char, (patternError "[").toList = pre ++ "[".toList ++ post :=
  error_message_contains_pattern "[" [] true (patternError "[") (by decide)

/-- C7: every successful search decomposes into per-file blocks in input
order, and within the block of each file the line fields are 1-based (at
least 1) and monotonically non-decreasing in the order the results
appear. -/
theorem lines_one_based_monotone (pattern : String) (files : List FileInput)
    (case_sensitive : Bool) (res : List MatchResult)
    (h : search pattern files case_sensitive = Except.ok res) :
    ∃ re, compileRegex pattern.toList (!case_sensitive) = some re ∧
      res = files.flatMap (fun f => fileMatches re f) ∧
      ∀ f : FileInput,
        (∀ r ∈ fileMatches re f, 1 ≤ r.line) ∧
        List.Pairwise (fun a b : MatchResult => a.line ≤ b.line) (fileMatches re f) := by
  cases hc : compileRegex pattern.toList (!case_sensitive) with
  | none =>
    rw [search_err hc files] at h
    exact absurd h (by simp)
  | some re =>
    rw [search_ok hc files] at h
    injection h with h'
    exact ⟨re, rfl, h'.symm,
      fun f => ⟨fun r hr => fileMatches_line_pos hr, fileMatches_pairwise re f⟩⟩

theorem lines_one_based_monotone_witness :
    ∃ re, compileRegex "Line".toList (!true) = some re ∧
      [(⟨"t", 1, 1, "Line 1"⟩ : MatchResult), ⟨"t", 2, 1, "Line 2"⟩, ⟨"t", 3, 1, "Line 3"⟩] =
        [(⟨"t", "Line 1\nLine 2\nLine 3"⟩ : FileInput)].flatMap (fun f => fileMatches re f) ∧
      ∀ f : FileInput,
        (∀ r ∈ fileMatches re f, 1 ≤ r.line) ∧
        List.Pairwise (fun a b : MatchResult => a.line ≤ b.line) (fileMatches re f) :=
  lines_one_based_monotone "Line" [⟨"t", "Line 1\nLine 2\nLine 3"⟩] true
    [⟨"t", 1, 1, "Line 1"⟩, ⟨"t", 2, 1, "Line 2"⟩, ⟨"t", 3, 1, "Line 3"⟩] (by decide)

/-- C8: in every successful search the results decompose into per-line
blocks, and within the block of any single line of any single file the
column fields strictly increase across successive results, also when some
or all matches are zero-width. -/
theorem columns_strictly_increasing (pattern : String) (files : List FileInput)
    (case_sensitive : Bool) (res : List MatchResult)
    (h : search pattern files case_sensitive = Except.ok res) :
    ∃ re, compileRegex pattern.toList (!case_sensitive) = some re ∧
      res = files.flatMap (fun f =>
        ((splitLines f.content.toList).enum).flatMap fun p =>
          lineMatches re f.path p.1 p.2) ∧
      ∀ (path : String) (idx : Nat) (line : List Char),
        List.Pairwise (fun a b : MatchResult => a.column < b.column)
          (lineMatches re path idx line) := by
  cases hc : compileRegex pattern.toList (!case_sensitive) with
  | none =>
    rw [search_err hc files] at h
    exact absurd h (by simp)
  | some re =>
    rw [search_ok hc files] at h
    injection h with h'
    exact ⟨re, rfl, h'.symm, fun path idx line => lineMatches_columns re path idx line⟩

theorem columns_strictly_increasing_witness :
    ∃ re, compileRegex "".toList (!true) = some re ∧
      [(⟨"t", 1, 1, "ab"⟩ : MatchResult), ⟨"t", 1, 2, "ab"⟩, ⟨"t", 1, 3, "ab"⟩] =
        [(⟨"t", "ab"⟩ : FileInput)].flatMap (fun f =>
          ((splitLines f.content.toList).enum).flatMap fun p =>
            lineMatches re f.path p.1 p.2) ∧
      ∀ (path : String) (idx : Nat) (line : List Char),
        List.Pairwise (fun a b : MatchResult => a.column < b.column)
          (lineMatches re path idx line) :=
  columns_strictly_increasing "" [⟨"t", "ab"⟩] true
    [⟨"t", 1, 1, "ab"⟩, ⟨"t", 1, 2, "ab"⟩, ⟨"t", 1, 3, "ab"⟩] (by decide)

/-- C9: the column of every result of a successful search is a 1-based
BYTE offset — it equals 1 plus the UTF-8 byte length of the characters of
the line preceding the match start; every character occupies at least one
byte, so the column is at least the character position plus one, and
exceeds it exactly when a preceding character is multibyte. -/
theorem column_is_one_based_byte_offset (pattern : String) (files : List FileInput)
    (case_sensitive : Bool) (res : List MatchResult)
    (h : search pattern files case_sensitive = Except.ok res) :
    ∀ r ∈ res, ∃ (line : List Char) (s : Nat),
      r.line_text = String.mk line ∧ s ≤ line.length ∧
      r.column = utf8Len (line.take s) + 1 ∧ s + 1 ≤ r.column := by
  cases hc : compileRegex pattern.toList (!case_sensitive) with
  | none =>
    rw [search_err hc files] at h
    exact absurd h (by simp)
  | some re =>
    rw [search_ok hc files] at h
    injection h with h'
    intro r hr
    rw [← h'] at hr
    obtain ⟨f, idx, line, -, hl⟩ := searchSpec_mem hr
    obtain ⟨s, hs, rfl⟩ := lineMatches_shape hl
    refine ⟨line, s, rfl, hs, rfl, ?_⟩
    have h1 := length_le_utf8Len (line.take s)
    have h2 : (line.take s).length = s := by
      rw [List.length_take]
      omega
    show s + 1 ≤ utf8Len (line.take s) + 1
    omega

theorem column_is_one_based_byte_offset_witness :
    ∃ (line : List Char) (s : Nat),
      (⟨"t", 1, 5, "ααa"⟩ : MatchResult).line_text = String.mk line ∧ s ≤ line.length ∧
      (⟨"t", 1, 5, "ααa"⟩ : MatchResult).column = utf8Len (line.take s) + 1 ∧
      s + 1 ≤ (⟨"t", 1, 5, "ααa"⟩ : MatchResult).column :=
  column_is_one_based_byte_offset "a" [⟨"t", "ααa"⟩] true [⟨"t", 1, 5, "ααa"⟩]
    (by decide) ⟨"t", 1, 5, "ααa"⟩ (by simp)

/-- C10: line splitting follows Rust str lines semantics — a line is
terminated by LF, which is excluded from the line; a CRLF also terminates
a line and both characters are excluded; a bare CR does not terminate a
line; content with no trailing terminator still yields its final partial
line; a trailing terminator does not produce an extra empty final line;
and empty content yields no line. -/
theorem splitLines_rust_semantics :
    (∀ l rest : List Char, '\n' ∉ l → l.getLast? ≠ some '\r' →
      splitLines (l ++ '\n' :: rest) = l :: splitLines rest) ∧
    (∀ l rest : List Char, '\n' ∉ l →
      splitLines (l ++ '\r' :: '\n' :: rest) = l :: splitLines rest) ∧
    (∀ l : List Char, '\n' ∉ l → l ≠ [] → splitLines l = [l]) ∧
    splitLines [] = [] ∧
    (∀ l : List Char, '\n' ∉ l → l ≠ [] → l.getLast? ≠ some '\r' →
      splitLines (l ++ ['\n']) = [l]) := by
  refine ⟨fun l rest h1 h2 => splitLines_term h1 h2 rest,
    fun l rest h1 => splitLines_crlf h1 rest,
    fun l h1 h2 => splitLines_single h1 h2,
    rfl, ?_⟩
  intro l h1 h2 h3
  rw [show (['\n'] : List Char) = '\n' :: [] from rfl, splitLines_term h1 h3 []]
  rfl

theorem splitLines_rust_semantics_witness :
    splitLines ("ab".toList ++ '\n' :: "cd".toList) = "ab".toList :: splitLines "cd".toList ∧
    splitLines ("ab".toList ++ '\r' :: '\n' :: "cd".toList) =
      "ab".toList :: splitLines "cd".toList ∧
    splitLines "a\rb".toList = ["a\rb".toList] ∧
    splitLines ("ab".toList ++ ['\n']) = ["ab".toList] :=
  ⟨splitLines_rust_semantics.1 "ab".toList "cd".toList (by decide) (by decide),
    splitLines_rust_semantics.2.1 "ab".toList "cd".toList (by decide),
    splitLines_rust_semantics.2.2.1 "a\rb".toList (by decide) (by decide),
    splitLines_rust_semantics.2.2.2.2 "ab".toList (by decide) (by decide) (by decide)⟩

end SimpleFind
